import Mathlib

/-!
Verification of the coffee-market-pipeline core: the feature-construction
step (features.py, buildFeatureMatrix) and the train/eval step
(train_eval.py, timeSplit and the MAE/RMSE metrics).

The embedding is a shallow one over lists.  A raw observation is a
(date, value) pair with an integer date key and a rational value; an
undefined (NaN) cell is `none`.  The arithmetic of the engineered
columns lives in an arbitrary field R, with the natural logarithm and
the square root passed in as function parameters (`rlog`, `rsqrt`); this
keeps every definition computable, and the theorems instantiate R with
the real numbers, `rlog` with Real.log and `rsqrt` with Real.sqrt.
-/

namespace CoffeePipeline

/-- A raw observation: one row of the input table with a date key and a
numeric value, as consumed by buildFeatureMatrix after date parsing. -/
structure Obs where
  date : Int
  value : ℚ
deriving DecidableEq, Repr

instance : Inhabited Obs := ⟨⟨0, 0⟩⟩

/-- The date ordering used by sort_values; non-strict. -/
def dle (a b : Obs) : Prop := a.date ≤ b.date

/-- Strict date ordering, for series with pairwise distinct dates. -/
def dlt (a b : Obs) : Prop := a.date < b.date

instance : DecidableRel dle :=
  fun a b => inferInstanceAs (Decidable (a.date ≤ b.date))

instance : DecidableRel dlt :=
  fun a b => inferInstanceAs (Decidable (a.date < b.date))

/-- Stable insertion of an observation into a date-sorted list: the new
element goes in front of the first element with a date not smaller than
its own. -/
def insertByDate (o : Obs) : List Obs → List Obs
  | [] => [o]
  | x :: xs => if o.date ≤ x.date then o :: x :: xs else x :: insertByDate o xs

/-- df.sort_values of the source, modelled as a stable sort by date. -/
def sortByDate (df : List Obs) : List Obs :=
  df.foldr insertByDate []

/-- The validated series: sort by date, then keep only rows with a
strictly positive numeric value (the dropna / value-positivity filter of
buildFeatureMatrix before the log transform). -/
def validSeries (df : List Obs) : List Obs :=
  (sortByDate df).filter (fun o => decide (0 < o.value))

/-- Series.diff of pandas on a column without missing values: position 0
becomes undefined, position t (t >= 1) holds the difference with the
previous entry. -/
def diffCol {R : Type} [Field R] (l : List R) : List (Option R) :=
  match l with
  | [] => []
  | x :: xs => none :: List.zipWith (fun a b => some (b - a)) (x :: xs) xs

/-- Series.shift of pandas: a shift by k >= 0 moves entries forward and
fills the first k positions with undefined values; a negative k moves
entries backward and fills the tail.  The column length is preserved. -/
def shiftCol {α : Type} (k : Int) (col : List (Option α)) : List (Option α) :=
  if 0 ≤ k then
    (List.replicate k.toNat none ++ col).take col.length
  else
    col.drop (-k).toNat ++ List.replicate (min ((-k).toNat) col.length) none

/-- Collect a list of optional values; undefined as soon as one entry is
undefined (pandas window statistics are NaN if the window has a NaN). -/
def allSome {α : Type} : List (Option α) → Option (List α)
  | [] => some []
  | none :: _ => none
  | some x :: xs => (allSome xs).map (fun ys => x :: ys)

/-- The trailing window of width w ending at position t of a column, as
used by Series.rolling: defined only when the window fits entirely in
the column and every entry in it is defined. -/
def windowAt {α : Type} (col : List (Option α)) (w t : Nat) : Option (List α) :=
  if 1 ≤ w ∧ w ≤ t + 1 then allSome ((col.drop (t + 1 - w)).take w) else none

/-- rolling(window=w).mean() over a column. -/
def rollMeanCol {R : Type} [Field R] (col : List (Option R)) (w : Nat) :
    List (Option R) :=
  (List.range col.length).map fun t =>
    (windowAt col w t).map fun xs => xs.sum / (w : R)

/-- Sample standard deviation of a finite sample with Bessel's
correction (pandas Series.std, ddof = 1); undefined on fewer than two
points, where the 0/0 division yields NaN. -/
def sampleStd {R : Type} [Field R] (rsqrt : R → R) (xs : List R) : Option R :=
  if xs.length ≤ 1 then none
  else
    some (rsqrt (((xs.map fun x =>
      (x - xs.sum / (xs.length : R)) ^ 2).sum) / ((xs.length : R) - 1)))

/-- rolling(window=w).std() over a column. -/
def rollStdCol {R : Type} [Field R] (rsqrt : R → R) (col : List (Option R))
    (w : Nat) : List (Option R) :=
  (List.range col.length).map fun t =>
    (windowAt col w t).bind (sampleStd rsqrt)

/-- The log-return column of the validated series: diff of the log
prices. -/
def logReturns {R : Type} [Field R] (rlog : ℚ → R) (df : List Obs) :
    List (Option R) :=
  diffCol ((validSeries df).map fun o => rlog o.value)

/-- One row of the engineered table: the original columns plus the
log price, the log return, one lag feature per requested lag, one
rolling mean and one rolling std per requested window, and the shifted
target y_next_return.  Feature cells are listed in the order of the lags
and windows arguments. -/
structure FeatureRow (R : Type) where
  date : Int
  value : ℚ
  log_price : R
  log_return : Option R
  lagFeats : List (Option R)
  rollMeans : List (Option R)
  rollStds : List (Option R)
  y_next_return : Option R

instance {R : Type} [Zero R] : Inhabited (FeatureRow R) :=
  ⟨⟨0, 0, 0, none, [], [], [], none⟩⟩

/-- Row t of the engineered table before the final dropna, read off the
columns the pipeline has computed over the validated series. -/
def preRow {R : Type} [Field R] (rlog : ℚ → R) (rsqrt : R → R) (df : List Obs)
    (lags : List Int) (windows : List Nat) (t : Nat) : FeatureRow R :=
  let valid := validSeries df
  let lp := valid.map fun o => rlog o.value
  let lr := diffCol lp
  { date := (valid.getD t default).date
    value := (valid.getD t default).value
    log_price := lp.getD t 0
    log_return := lr.getD t none
    lagFeats := lags.map fun k => (shiftCol k lr).getD t none
    rollMeans := windows.map fun w => (rollMeanCol lr w).getD t none
    rollStds := windows.map fun w => (rollStdCol rsqrt lr w).getD t none
    y_next_return := (shiftCol (-1) lr).getD t none }

/-- The full table before the final dropna: one row per validated
observation, with every engineered column filled in (possibly with
undefined cells). -/
def preTable {R : Type} [Field R] (rlog : ℚ → R) (rsqrt : R → R) (df : List Obs)
    (lags : List Int) (windows : List Nat) : List (FeatureRow R) :=
  (List.range (validSeries df).length).map (preRow rlog rsqrt df lags windows)

/-- The dropna criterion: a row survives when every cell that the
pipeline can make undefined is defined. -/
def rowDefined {R : Type} (r : FeatureRow R) : Bool :=
  r.log_return.isSome && r.lagFeats.all Option.isSome &&
    r.rollMeans.all Option.isSome && r.rollStds.all Option.isSome &&
    r.y_next_return.isSome

/-- buildFeatureMatrix of features.py: sort by date, validate values,
derive the log-return, lag, rolling and target columns, then drop every
row with an undefined cell. -/
def buildFeatureMatrix {R : Type} [Field R] (rlog : ℚ → R) (rsqrt : R → R)
    (df : List Obs) (lags : List Int) (windows : List Nat) :
    List (FeatureRow R) :=
  (preTable rlog rsqrt df lags windows).filter rowDefined

/-- Python round on a rational: round half to even, as used by
round(n * test_size). -/
def pyRound (q : ℚ) : Int :=
  if q - ⌊q⌋ < 1 / 2 then ⌊q⌋
  else if 1 / 2 < q - ⌊q⌋ then ⌊q⌋ + 1
  else if 2 ∣ ⌊q⌋ then ⌊q⌋ else ⌊q⌋ + 1

/-- A Python slice boundary: iloc[:m] / iloc[m:] interpret a negative m
as counting from the end of the n rows, and clamp the result to
[0, n]. -/
def pyIdx (n : Nat) (m : Int) : Nat :=
  if 0 ≤ m then min m.toNat n else n - (-m).toNat

/-- timeSplit of train_eval.py: with n_test = max(1, round(n * test_size)),
the rows before slice boundary n - n_test (a possibly negative Python
index) become the train set and the rows from it on the test set; no
re-sorting, no shuffling. -/
def timeSplit {α : Type} (df : List α) (test_size : ℚ) : List α × List α :=
  let n := df.length
  let n_test := max 1 (pyRound ((n : ℚ) * test_size)).toNat
  let b := pyIdx n ((n : Int) - (n_test : Int))
  (df.take b, df.drop b)

/-- sklearn mean_absolute_error as called by train_eval.py. -/
def mean_absolute_error {R : Type} [LinearOrderedField R]
    (ytrue ypred : List R) : R :=
  ((List.zipWith (fun a b => |a - b|) ytrue ypred).sum) / (ytrue.length : R)

/-- sklearn mean_squared_error as called by train_eval.py. -/
def mean_squared_error {R : Type} [LinearOrderedField R]
    (ytrue ypred : List R) : R :=
  ((List.zipWith (fun a b => (a - b) ^ 2) ytrue ypred).sum) / (ytrue.length : R)

/-- rmse of train_eval.py: the square root of the mean squared error. -/
def rmseMetric {R : Type} [LinearOrderedField R] (rsqrt : R → R)
    (ytrue ypred : List R) : R :=
  rsqrt (mean_squared_error ytrue ypred)

/-- The scenario series for the row-count claim: 20 monthly
observations, each one percent above the previous (a common positive
scale factor keeps the values integral). -/
def c2series : List Obs :=
  (List.range 20).map fun t : Nat =>
    { date := Int.ofNat t, value := ((101 ^ t * 100 ^ (19 - t) : ℕ) : ℚ) }

/-- A small strictly increasing positive demonstration series. -/
def demo6 : List Obs :=
  [⟨0, 1⟩, ⟨1, 2⟩, ⟨2, 3⟩, ⟨3, 4⟩, ⟨4, 5⟩, ⟨5, 6⟩]

/-- A four-row demonstration series. -/
def demo4 : List Obs :=
  [⟨0, 1⟩, ⟨1, 2⟩, ⟨2, 3⟩, ⟨3, 4⟩]

/-- A five-row demonstration series. -/
def demo5 : List Obs :=
  [⟨0, 1⟩, ⟨1, 2⟩, ⟨2, 3⟩, ⟨3, 4⟩, ⟨4, 5⟩]

/-- A ten-row list for the split scenario. -/
def demo10 : List Nat :=
  [0, 1, 2, 3, 4, 5, 6, 7, 8, 9]

/-- The largest requested lag, clamped to a natural number. -/
def maxLagNat (lags : List Int) : Nat :=
  (lags.map Int.toNat).foldr max 0

/-- The largest requested rolling window. -/
def maxWin (windows : List Nat) : Nat :=
  windows.foldr max 0

/-- The mathematical log-return at offset t of the validated series: the
difference of the logs of consecutive values, written directly from the
data rather than through the column machinery. -/
def logReturnVal {R : Type} [Field R] (rlog : ℚ → R) (df : List Obs) (t : Nat) : R :=
  rlog (((validSeries df).getD t default).value) -
    rlog (((validSeries df).getD (t - 1) default).value)

/-! ### Indexing helpers -/

theorem getD_eq_getElem {α : Type} (l : List α) (d : α) {t : Nat} (h : t < l.length) :
    l.getD t d = l[t] := by
  simp [List.getD_eq_getElem?_getD, List.getElem?_eq_getElem h]

theorem getD_eq_default {α : Type} (l : List α) (d : α) {t : Nat} (h : l.length ≤ t) :
    l.getD t d = d := by
  simp [List.getD_eq_getElem?_getD, List.getElem?_eq_none h]

theorem getD_range_map {α : Type} (f : Nat → α) (n t : Nat) (d : α) (h : t < n) :
    ((List.range n).map f).getD t d = f t := by
  simp [List.getD_eq_getElem?_getD, List.getElem?_map, List.getElem?_range h]

theorem getD_map {α β : Type} (f : α → β) (l : List α) (t : Nat) (d : β) (e : α)
    (h : t < l.length) : (l.map f).getD t d = f (l.getD t e) := by
  rw [getD_eq_getElem _ _ (by simpa using h), getD_eq_getElem _ _ h]
  simp

theorem getD_zero_mem {α : Type} (l : List α) (d : α) (h : 0 < l.length) :
    l.getD 0 d ∈ l := by
  rw [getD_eq_getElem _ _ h]
  exact List.getElem_mem h

theorem getD_mem_of_lt {α : Type} (l : List α) (d : α) {t : Nat} (h : t < l.length) :
    l.getD t d ∈ l := by
  rw [getD_eq_getElem _ _ h]
  exact List.getElem_mem h

/-! ### diffCol -/

theorem length_diffCol {R : Type} [Field R] (l : List R) :
    (diffCol l).length = l.length := by
  cases l with
  | nil => rfl
  | cons x xs => simp [diffCol]

theorem getD_diffCol_zero {R : Type} [Field R] (l : List R) :
    (diffCol l).getD 0 none = none := by
  cases l <;> rfl

theorem getD_diffCol_succ {R : Type} [Field R] (l : List R) (t : Nat)
    (h : t + 1 < l.length) :
    (diffCol l).getD (t + 1) none = some (l.getD (t + 1) 0 - l.getD t 0) := by
  cases l with
  | nil => simp at h
  | cons x xs =>
    have ht : t < xs.length := by simpa using h
    have h1 : t < (x :: xs).length := by simp only [List.length_cons]; omega
    have hd : diffCol (x :: xs)
        = none :: List.zipWith (fun a b => some (b - a)) (x :: xs) xs := rfl
    rw [List.getD_eq_getElem?_getD, hd, List.getElem?_cons_succ, List.getElem?_zipWith,
      List.getElem?_eq_getElem h1, List.getElem?_eq_getElem ht,
      getD_eq_getElem _ _ h, getD_eq_getElem _ _ h1]
    simp

theorem getD_diffCol_isSome {R : Type} [Field R] (l : List R) (t : Nat) :
    ((diffCol l).getD t none).isSome = true ↔ 1 ≤ t ∧ t < l.length := by
  cases t with
  | zero => rw [getD_diffCol_zero]; simp
  | succ t =>
    by_cases h : t + 1 < l.length
    · rw [getD_diffCol_succ l t h]
      simp [h]
    · rw [getD_eq_default _ _ (by rw [length_diffCol]; omega)]
      simp
      omega

/-! ### shiftCol -/

theorem length_shiftCol {α : Type} (k : Int) (col : List (Option α)) :
    (shiftCol k col).length = col.length := by
  unfold shiftCol
  split
  · simp
  · simp
    omega

theorem getD_shiftCol_nonneg {α : Type} (k : Int) (hk : 0 ≤ k)
    (col : List (Option α)) (t : Nat) (ht : t < col.length) :
    (shiftCol k col).getD t none =
      if t < k.toNat then none else col.getD (t - k.toNat) none := by
  unfold shiftCol
  rw [if_pos hk]
  rw [List.getD_eq_getElem?_getD, List.getElem?_take, if_pos ht, List.getElem?_append]
  by_cases h : t < k.toNat
  · rw [if_pos h, if_pos (by simpa using h)]
    simp [List.getElem?_replicate, h]
  · rw [if_neg h, if_neg (by simpa using h)]
    simp [List.getD_eq_getElem?_getD]

theorem getD_shiftCol_neg {α : Type} (k : Int) (hk : k < 0)
    (col : List (Option α)) (t : Nat) :
    (shiftCol k col).getD t none = col.getD (t + (-k).toNat) none := by
  unfold shiftCol
  rw [if_neg (by omega)]
  set m := (-k).toNat with hm
  set n := col.length with hn
  rw [List.getD_eq_getElem?_getD, List.getElem?_append]
  by_cases h : t < (col.drop m).length
  · rw [if_pos h, List.getElem?_drop]
    rw [List.getD_eq_getElem?_getD, Nat.add_comm t m]
  · rw [if_neg h]
    have hlen : (col.drop m).length = n - m := by simp [hn]
    have hge : n ≤ t + m := by omega
    rw [getD_eq_default _ _ (by omega)]
    rw [List.getElem?_replicate]
    split <;> simp

/-! ### allSome, windows and rolling statistics -/

theorem allSome_map_some {α : Type} (xs : List α) : allSome (xs.map some) = some xs := by
  induction xs with
  | nil => rfl
  | cons x xs ih => simp [allSome, ih]

theorem allSome_eq_some {α : Type} (l : List (Option α)) (xs : List α)
    (h : allSome l = some xs) : l = xs.map some := by
  induction l generalizing xs with
  | nil =>
    simp [allSome] at h
    simp [← h]
  | cons x t ih =>
    cases x with
    | none => simp [allSome] at h
    | some a =>
      simp only [allSome, Option.map_eq_some'] at h
      obtain ⟨ys, hys, rfl⟩ := h
      simp [ih ys hys]

theorem allSome_isSome {α : Type} (l : List (Option α)) :
    (allSome l).isSome = true ↔ ∀ x ∈ l, x.isSome = true := by
  induction l with
  | nil => simp [allSome]
  | cons x xs ih =>
    cases x with
    | none => simp [allSome]
    | some a => simp [allSome, ih]

theorem slice_eq_range_map {α : Type} (col : List (Option α)) (a w : Nat)
    (h : a + w ≤ col.length) :
    (col.drop a).take w = (List.range w).map fun i => col.getD (a + i) none := by
  apply List.ext_getElem
  · simp
    omega
  · intro i h1 h2
    have hi : i < w := by simpa using h2
    have hai : a + i < col.length := by omega
    rw [List.getElem_take, List.getElem_drop]
    rw [List.getElem_map, List.getElem_range]
    rw [getD_eq_getElem _ _ hai]

theorem windowAt_isSome {α : Type} (col : List (Option α)) (w t : Nat)
    (ht : t < col.length) :
    (windowAt col w t).isSome = true ↔
      1 ≤ w ∧ w ≤ t + 1 ∧ ∀ i < w, (col.getD (t + 1 - w + i) none).isSome = true := by
  unfold windowAt
  by_cases hc : 1 ≤ w ∧ w ≤ t + 1
  · rw [if_pos hc]
    rw [slice_eq_range_map col (t + 1 - w) w (by omega)]
    rw [allSome_isSome]
    simp only [List.mem_map, List.mem_range]
    constructor
    · intro hall
      exact ⟨hc.1, hc.2, fun i hi => hall _ ⟨i, hi, rfl⟩⟩
    · rintro ⟨-, -, hall⟩ x ⟨i, hi, rfl⟩
      exact hall i hi
  · rw [if_neg hc]
    simp
    intro h1 h2
    exact absurd ⟨h1, h2⟩ hc

theorem windowAt_eq_some {α : Type} (col : List (Option α)) (w t : Nat)
    (hw : 1 ≤ w) (hwt : w ≤ t + 1) (hlen : t < col.length) (vals : Nat → α)
    (hvals : ∀ i < w, col.getD (t + 1 - w + i) none = some (vals (t + 1 - w + i))) :
    windowAt col w t = some ((List.range w).map fun i => vals (t + 1 - w + i)) := by
  unfold windowAt
  rw [if_pos ⟨hw, hwt⟩]
  rw [slice_eq_range_map col (t + 1 - w) w (by omega)]
  have hmap : ((List.range w).map fun i => col.getD (t + 1 - w + i) none)
      = ((List.range w).map fun i => vals (t + 1 - w + i)).map some := by
    rw [List.map_map]
    apply List.map_congr_left
    intro i hi
    exact hvals i (List.mem_range.mp hi)
  rw [hmap, allSome_map_some]

theorem getD_rollMeanCol {R : Type} [Field R] (col : List (Option R)) (w t : Nat)
    (ht : t < col.length) :
    (rollMeanCol col w).getD t none
      = (windowAt col w t).map fun xs => xs.sum / (w : R) :=
  getD_range_map _ _ _ _ ht

theorem getD_rollStdCol {R : Type} [Field R] (rsqrt : R → R) (col : List (Option R))
    (w t : Nat) (ht : t < col.length) :
    (rollStdCol rsqrt col w).getD t none
      = (windowAt col w t).bind (sampleStd rsqrt) :=
  getD_range_map _ _ _ _ ht

theorem sampleStd_isSome {R : Type} [Field R] (rsqrt : R → R) (xs : List R) :
    (sampleStd rsqrt xs).isSome = true ↔ 2 ≤ xs.length := by
  unfold sampleStd
  split
  · simp
    omega
  · simp
    omega

theorem windowAt_length {α : Type} (col : List (Option α)) (w t : Nat)
    (ht : t < col.length) (xs : List α) (h : windowAt col w t = some xs) :
    xs.length = w := by
  unfold windowAt at h
  split at h
  next hc =>
    have heq := allSome_eq_some _ _ h
    have hlen : ((col.drop (t + 1 - w)).take w).length = xs.length := by
      rw [heq]
      simp
    simp at hlen
    omega
  next => exact absurd h (by simp)

/-! ### Sorting by date -/

theorem mem_insertByDate {o x : Obs} {l : List Obs} (h : x ∈ insertByDate o l) :
    x = o ∨ x ∈ l := by
  induction l with
  | nil => simpa [insertByDate] using h
  | cons y ys ih =>
    by_cases hc : o.date ≤ y.date
    · simp only [insertByDate, if_pos hc, List.mem_cons] at h
      rcases h with h | h
      · exact Or.inl h
      · right
        exact List.mem_cons.mpr h
    · simp only [insertByDate, if_neg hc, List.mem_cons] at h
      rcases h with h | h
      · right
        simp [h]
      · rcases ih h with h | h
        · exact Or.inl h
        · right
          simp [h]

theorem pairwise_insertByDate {o : Obs} {l : List Obs} (h : List.Pairwise dle l) :
    List.Pairwise dle (insertByDate o l) := by
  induction l with
  | nil => simp [insertByDate]
  | cons x xs ih =>
    rcases List.pairwise_cons.mp h with ⟨hx, hxs⟩
    by_cases hc : o.date ≤ x.date
    · simp only [insertByDate, if_pos hc]
      rw [List.pairwise_cons]
      refine ⟨?_, h⟩
      intro y hy
      rcases List.mem_cons.mp hy with rfl | hy
      · exact hc
      · exact le_trans hc (hx y hy)
    · simp only [insertByDate, if_neg hc]
      rw [List.pairwise_cons]
      refine ⟨?_, ih hxs⟩
      intro y hy
      rcases mem_insertByDate hy with rfl | hy
      · exact le_of_not_le hc
      · exact hx y hy

theorem pairwise_sortByDate (df : List Obs) : List.Pairwise dle (sortByDate df) := by
  induction df with
  | nil => simp [sortByDate]
  | cons x xs ih => exact pairwise_insertByDate ih

theorem insertByDate_of_le {o : Obs} {l : List Obs} (h : ∀ y ∈ l, o.date ≤ y.date) :
    insertByDate o l = o :: l := by
  cases l with
  | nil => rfl
  | cons x xs => simp [insertByDate, h x (List.mem_cons_self x xs)]

theorem sortByDate_of_sorted {df : List Obs} (h : List.Pairwise dle df) :
    sortByDate df = df := by
  induction df with
  | nil => rfl
  | cons x xs ih =>
    rcases List.pairwise_cons.mp h with ⟨hx, hxs⟩
    show insertByDate x (sortByDate xs) = x :: xs
    rw [ih hxs]
    exact insertByDate_of_le hx

theorem sortByDate_idem (df : List Obs) :
    sortByDate (sortByDate df) = sortByDate df :=
  sortByDate_of_sorted (pairwise_sortByDate df)

/-! ### The validated series -/

theorem validSeries_eq_self {df : List Obs} (hs : List.Pairwise dle df)
    (hp : ∀ o ∈ df, 0 < o.value) : validSeries df = df := by
  unfold validSeries
  rw [sortByDate_of_sorted hs]
  exact List.filter_eq_self.mpr fun o ho => by simpa using hp o ho

theorem validSeries_sortByDate (df : List Obs) :
    validSeries (sortByDate df) = validSeries df := by
  unfold validSeries
  rw [sortByDate_idem]

theorem pairwise_validSeries (df : List Obs) :
    List.Pairwise dle (validSeries df) :=
  List.Pairwise.sublist (List.filter_sublist _) (pairwise_sortByDate df)

/-! ### Access to the engineered table -/

theorem length_preTable {R : Type} [Field R] (rlog : ℚ → R) (rsqrt : R → R)
    (df : List Obs) (lags : List Int) (windows : List Nat) :
    (preTable rlog rsqrt df lags windows).length = (validSeries df).length := by
  simp [preTable]

theorem getD_preTable {R : Type} [Field R] (rlog : ℚ → R) (rsqrt : R → R)
    (df : List Obs) (lags : List Int) (windows : List Nat) (t : Nat)
    (ht : t < (validSeries df).length) :
    (preTable rlog rsqrt df lags windows).getD t default
      = preRow rlog rsqrt df lags windows t :=
  getD_range_map _ _ _ _ ht

theorem mem_preTable {R : Type} [Field R] {rlog : ℚ → R} {rsqrt : R → R}
    {df : List Obs} {lags : List Int} {windows : List Nat} {r : FeatureRow R}
    (h : r ∈ preTable rlog rsqrt df lags windows) :
    ∃ t, t < (validSeries df).length ∧ r = preRow rlog rsqrt df lags windows t := by
  unfold preTable at h
  rcases List.mem_map.mp h with ⟨t, htr, rfl⟩
  exact ⟨t, List.mem_range.mp htr, rfl⟩

/-! ### Maxima and sum helpers -/

theorem foldr_max_le {l : List Nat} {x : Nat} :
    l.foldr max 0 ≤ x ↔ ∀ a ∈ l, a ≤ x := by
  induction l with
  | nil => simp
  | cons a l ih => simp [Nat.max_le, ih]

theorem le_foldr_max {l : List Nat} {a : Nat} (h : a ∈ l) : a ≤ l.foldr max 0 := by
  induction l with
  | nil => simp at h
  | cons b l ih =>
    rcases List.mem_cons.mp h with rfl | h
    · exact Nat.le_max_left _ _
    · exact le_trans (ih h) (Nat.le_max_right _ _)

theorem sum_range_map {R : Type} [AddCommMonoid R] (f : Nat → R) (w : Nat) :
    ((List.range w).map f).sum = ∑ i ∈ Finset.range w, f i := by
  induction w with
  | zero => simp
  | succ n ih => rw [List.range_succ]; simp [ih, Finset.sum_range_succ]

theorem sum_zipWith {α β R : Type} [AddCommMonoid R] (f : α → β → R)
    (l1 : List α) (l2 : List β) (d1 : α) (d2 : β) (h : l2.length = l1.length) :
    (List.zipWith f l1 l2).sum
      = ∑ i ∈ Finset.range l1.length, f (l1.getD i d1) (l2.getD i d2) := by
  induction l1 generalizing l2 with
  | nil => simp
  | cons a l1 ih =>
    cases l2 with
    | nil => simp at h
    | cons b l2 =>
      have hlen : l2.length = l1.length := by simpa using h
      rw [List.zipWith_cons_cons, List.sum_cons, ih l2 hlen]
      rw [List.length_cons, Finset.sum_range_succ']
      simp only [List.getD_cons_succ, List.getD_cons_zero]
      exact add_comm _ _

/-! ### Claim C1: the target is the next log-return -/

/-- C1: every row of the table buildFeatureMatrix returns for a validated
input series has target y_next_return equal to the log-return of the
immediately following pre-drop observation, ln value[t+1] - ln value[t];
it is never the row's own or an earlier log-return. -/
theorem targetIsNextLogReturn (df : List Obs) (lags : List Int)
    (windows : List Nat) (hs : List.Pairwise dle df)
    (hp : ∀ o ∈ df, 0 < o.value) (r : FeatureRow ℝ)
    (hr : r ∈ buildFeatureMatrix (fun q => Real.log (q : ℝ)) Real.sqrt df lags windows) :
    ∃ t, t + 1 < df.length ∧ r.date = (df.getD t default).date ∧
      r.y_next_return
        = some (Real.log ((df.getD (t + 1) default).value : ℝ)
            - Real.log ((df.getD t default).value : ℝ)) := by
  have hv : validSeries df = df := validSeries_eq_self hs hp
  rcases List.mem_filter.mp hr with ⟨hpre, hdef⟩
  rcases mem_preTable hpre with ⟨t, ht, rfl⟩
  refine ⟨t, ?_, ?_, ?_⟩
  all_goals
    simp only [rowDefined, Bool.and_eq_true] at hdef
  · have hy := hdef.2
    rw [show (preRow (fun q => Real.log (q : ℝ)) Real.sqrt df lags windows t).y_next_return
        = (shiftCol (-1) (diffCol ((validSeries df).map fun o => Real.log (o.value : ℝ)))).getD t none
      from rfl] at hy
    rw [getD_shiftCol_neg (-1) (by norm_num)] at hy
    rw [getD_diffCol_isSome] at hy
    simp only [List.length_map, hv] at hy
    exact hy.2
  · rw [show (preRow (fun q => Real.log (q : ℝ)) Real.sqrt df lags windows t).date
        = ((validSeries df).getD t default).date from rfl, hv]
  · rw [show (preRow (fun q => Real.log (q : ℝ)) Real.sqrt df lags windows t).y_next_return
        = (shiftCol (-1) (diffCol ((validSeries df).map fun o => Real.log (o.value : ℝ)))).getD t none
      from rfl]
    have hy := hdef.2
    rw [show (preRow (fun q => Real.log (q : ℝ)) Real.sqrt df lags windows t).y_next_return
        = (shiftCol (-1) (diffCol ((validSeries df).map fun o => Real.log (o.value : ℝ)))).getD t none
      from rfl] at hy
    rw [getD_shiftCol_neg (-1) (by norm_num)] at hy
    rw [getD_diffCol_isSome] at hy
    simp only [List.length_map, hv] at hy
    have ht1 : t + 1 < df.length := hy.2
    rw [getD_shiftCol_neg (-1) (by norm_num)]
    have hlen : t + 1 < ((validSeries df).map fun o : Obs => Real.log (o.value : ℝ)).length := by
      simp [hv]
      omega
    rw [show t + (-(-1 : Int)).toNat = t + 1 from rfl]
    rw [getD_diffCol_succ _ t hlen]
    rw [getD_map _ _ _ _ default (by simp [hv]; omega),
      getD_map _ _ _ _ default (by simp [hv]; omega), hv]

/-- Witness for C1: on a four-row series with one lag and no windows, the
single surviving row carries the log-return of the following observation
as its target. -/
theorem targetIsNextLogReturn_witness :
    ∃ t, t + 1 < demo4.length ∧
      ((buildFeatureMatrix (fun q => Real.log (q : ℝ)) Real.sqrt demo4 [1] []).getD 0 default).date
        = (demo4.getD t default).date ∧
      ((buildFeatureMatrix (fun q => Real.log (q : ℝ)) Real.sqrt demo4 [1] []).getD 0 default).y_next_return
        = some (Real.log ((demo4.getD (t + 1) default).value : ℝ)
            - Real.log ((demo4.getD t default).value : ℝ)) :=
  targetIsNextLogReturn demo4 [1] [] (by decide) (by decide) _
    (getD_zero_mem _ _ (by decide))

/-! ### Claim C2: the 20-row scenario count -/

/-- C2 counterexample: on the 20-observation one-percent-growth series with
lags [1] and windows [3], buildFeatureMatrix does not return 15 rows. -/
theorem featureCount_cex :
    ¬ (buildFeatureMatrix (fun q => Real.log (q : ℝ)) Real.sqrt c2series [1] [3]).length = 15 := by
  decide

/-- C2 amended: the scenario table has exactly 16 rows; the diff and the
lag-1 requirements are subsumed by the window-3 requirement, so only the
window and the target shift cut rows (20 - 3 - 1 = 16). -/
theorem featureCount_scenario :
    (buildFeatureMatrix (fun q => Real.log (q : ℝ)) Real.sqrt c2series [1] [3]).length = 16 := by
  decide

/-! ### Claim C3: offsets of the defined rows -/

/-- C3 counterexample: with lags [1] and windows [3] on a six-row valid
series, the pre-drop row at offset max(1, max lags) = 1 is not fully
defined, so the first fully defined row is not at that offset. -/
theorem definedOffset_cex :
    rowDefined ((preTable (fun q => Real.log (q : ℝ)) Real.sqrt demo6 [1] [3]).getD 1 default)
      = false := by
  decide

/-! ### Claim C7: non-positive lags are silently accepted -/

/-- C7 counterexample: buildFeatureMatrix accepts lag 0 without any error
and returns a non-empty table in which the lag-0 feature is the row's own
log-return. -/
theorem lagZeroAccepted_cex :
    (buildFeatureMatrix (fun q => Real.log (q : ℝ)) Real.sqrt demo5 [0] [2]).length = 2
    ∧ ((buildFeatureMatrix (fun q => Real.log (q : ℝ)) Real.sqrt demo5 [0] [2]).getD 0 default).lagFeats
        = [((buildFeatureMatrix (fun q => Real.log (q : ℝ)) Real.sqrt demo5 [0] [2]).getD 0 default).log_return] :=
  ⟨by decide, by rfl⟩

/-! ### Claim C10: the build sorts its input -/

/-- C10: buildFeatureMatrix sorts its input by date itself: the table built
from any input equals the table built from the date-sorted input, and the
output rows are ascending by date, positionally indexed. -/
theorem buildSortsInput {R : Type} [Field R] (rlog : ℚ → R) (rsqrt : R → R)
    (df : List Obs) (lags : List Int) (windows : List Nat) :
    buildFeatureMatrix rlog rsqrt df lags windows
        = buildFeatureMatrix rlog rsqrt (sortByDate df) lags windows
    ∧ List.Pairwise (fun a b : FeatureRow R => a.date ≤ b.date)
        (buildFeatureMatrix rlog rsqrt df lags windows) := by
  have hrow : preRow rlog rsqrt (sortByDate df) lags windows
      = preRow rlog rsqrt df lags windows := by
    funext t
    simp only [preRow, validSeries_sortByDate]
  constructor
  · simp only [buildFeatureMatrix, preTable, validSeries_sortByDate, hrow]
  · apply List.Pairwise.sublist (List.filter_sublist _)
    rw [preTable, List.pairwise_iff_getElem]
    intro i j hi hj hij
    simp only [List.getElem_map, List.getElem_range]
    simp only [List.length_map, List.length_range] at hi hj
    show ((validSeries df).getD i default).date ≤ ((validSeries df).getD j default).date
    rw [getD_eq_getElem _ _ hi, getD_eq_getElem _ _ hj]
    have := List.pairwise_iff_getElem.mp (pairwise_validSeries df) i j hi hj hij
    exact this

/-! ### Cell-level characterizations -/

theorem getD_diffCol_of_pos {R : Type} [Field R] (l : List R) (p : Nat)
    (h1 : 1 ≤ p) (h2 : p < l.length) :
    (diffCol l).getD p none = some (l.getD p 0 - l.getD (p - 1) 0) := by
  obtain ⟨q, rfl⟩ : ∃ q, p = q + 1 := ⟨p - 1, by omega⟩
  rw [getD_diffCol_succ l q h2]
  simp

theorem lag_cell_isSome {R : Type} [Field R] (lp : List R) (k : Int) (hk : 1 ≤ k)
    (t : Nat) (ht : t < lp.length) :
    ((shiftCol k (diffCol lp)).getD t none).isSome = true ↔ k.toNat + 1 ≤ t := by
  have hlen : t < (diffCol lp).length := by rw [length_diffCol]; exact ht
  rw [getD_shiftCol_nonneg k (by omega) _ t hlen]
  by_cases h : t < k.toNat
  · rw [if_pos h]
    simp only [Option.isSome_none, Bool.false_eq_true, false_iff]
    omega
  · rw [if_neg h]
    rw [getD_diffCol_isSome]
    omega

theorem mean_cell_isSome {R : Type} [Field R] (lp : List R) (w t : Nat)
    (hw : 1 ≤ w) (ht : t < lp.length) :
    ((rollMeanCol (diffCol lp) w).getD t none).isSome = true ↔ w ≤ t := by
  have hlen : t < (diffCol lp).length := by rw [length_diffCol]; exact ht
  rw [getD_rollMeanCol _ _ _ hlen]
  rw [show ((windowAt (diffCol lp) w t).map fun xs => xs.sum / (w : R)).isSome
      = (windowAt (diffCol lp) w t).isSome by simp]
  rw [windowAt_isSome _ _ _ hlen]
  constructor
  · rintro ⟨h1, h2, hall⟩
    have h0 := hall 0 (by omega)
    rw [getD_diffCol_isSome] at h0
    omega
  · intro hwt
    refine ⟨hw, by omega, fun i hi => ?_⟩
    exact (getD_diffCol_isSome lp _).mpr ⟨by omega, by omega⟩

theorem std_cell_isSome {R : Type} [Field R] (rsqrt : R → R) (lp : List R)
    (w t : Nat) (hw2 : 2 ≤ w) (ht : t < lp.length) :
    ((rollStdCol rsqrt (diffCol lp) w).getD t none).isSome = true ↔ w ≤ t := by
  have hlen : t < (diffCol lp).length := by rw [length_diffCol]; exact ht
  have hmean := mean_cell_isSome lp w t (by omega) ht
  rw [getD_rollMeanCol _ _ _ hlen] at hmean
  rw [show ((windowAt (diffCol lp) w t).map fun xs => xs.sum / (w : R)).isSome
      = (windowAt (diffCol lp) w t).isSome by simp] at hmean
  rw [getD_rollStdCol _ _ _ _ hlen]
  constructor
  · intro h
    apply hmean.mp
    cases hwa : windowAt (diffCol lp) w t with
    | none => rw [hwa] at h; simp at h
    | some xs => simp
  · intro hwt
    rcases Option.isSome_iff_exists.mp (hmean.mpr hwt) with ⟨xs, hxs⟩
    rw [hxs]
    show (sampleStd rsqrt xs).isSome = true
    rw [sampleStd_isSome]
    rw [windowAt_length _ _ _ hlen xs hxs]
    exact hw2

theorem std_cell_window_one {R : Type} [Field R] (rsqrt : R → R)
    (col : List (Option R)) (t : Nat) (ht : t < col.length) :
    (rollStdCol rsqrt col 1).getD t none = none := by
  rw [getD_rollStdCol _ _ _ _ ht]
  cases hwa : windowAt col 1 t with
  | none => rfl
  | some xs =>
    have hx1 := windowAt_length _ _ _ ht xs hwa
    show sampleStd rsqrt xs = none
    unfold sampleStd
    rw [if_pos (by omega)]

theorem tgt_cell_isSome {R : Type} [Field R] (lp : List R) (t : Nat) :
    ((shiftCol (-1) (diffCol lp)).getD t none).isSome = true ↔ t + 1 < lp.length := by
  rw [getD_shiftCol_neg (-1) (by norm_num)]
  rw [show t + ((-(-1 : Int)).toNat) = t + 1 from rfl]
  rw [getD_diffCol_isSome]
  omega

/-! ### Maxima over the requested lags and windows -/

theorem maxLagNat_le_iff (lags : List Int) (t : Nat) :
    maxLagNat lags + 1 ≤ t ↔ 1 ≤ t ∧ ∀ k ∈ lags, k.toNat + 1 ≤ t := by
  unfold maxLagNat
  constructor
  · intro h
    refine ⟨by omega, fun k hk => ?_⟩
    have := le_foldr_max (List.mem_map_of_mem Int.toNat hk)
    omega
  · rintro ⟨h1, hall⟩
    have hle : (lags.map Int.toNat).foldr max 0 ≤ t - 1 := by
      rw [foldr_max_le]
      intro a ha
      rcases List.mem_map.mp ha with ⟨k, hk, rfl⟩
      have := hall k hk
      omega
    omega

theorem maxWin_le_iff (windows : List Nat) (t : Nat) :
    maxWin windows ≤ t ↔ ∀ w ∈ windows, w ≤ t := by
  unfold maxWin
  exact foldr_max_le

/-! ### Projections of a pre-drop row -/

theorem preRow_date {R : Type} [Field R] (rlog : ℚ → R) (rsqrt : R → R)
    (df : List Obs) (lags : List Int) (windows : List Nat) (t : Nat) :
    (preRow rlog rsqrt df lags windows t).date
      = ((validSeries df).getD t default).date := rfl

theorem preRow_log_return {R : Type} [Field R] (rlog : ℚ → R) (rsqrt : R → R)
    (df : List Obs) (lags : List Int) (windows : List Nat) (t : Nat) :
    (preRow rlog rsqrt df lags windows t).log_return
      = (diffCol ((validSeries df).map fun o => rlog o.value)).getD t none := rfl

theorem preRow_lagFeats {R : Type} [Field R] (rlog : ℚ → R) (rsqrt : R → R)
    (df : List Obs) (lags : List Int) (windows : List Nat) (t : Nat) :
    (preRow rlog rsqrt df lags windows t).lagFeats
      = lags.map fun k =>
          (shiftCol k (diffCol ((validSeries df).map fun o => rlog o.value))).getD t none := rfl

theorem preRow_rollMeans {R : Type} [Field R] (rlog : ℚ → R) (rsqrt : R → R)
    (df : List Obs) (lags : List Int) (windows : List Nat) (t : Nat) :
    (preRow rlog rsqrt df lags windows t).rollMeans
      = windows.map fun w =>
          (rollMeanCol (diffCol ((validSeries df).map fun o => rlog o.value)) w).getD t none := rfl

theorem preRow_rollStds {R : Type} [Field R] (rlog : ℚ → R) (rsqrt : R → R)
    (df : List Obs) (lags : List Int) (windows : List Nat) (t : Nat) :
    (preRow rlog rsqrt df lags windows t).rollStds
      = windows.map fun w =>
          (rollStdCol rsqrt (diffCol ((validSeries df).map fun o => rlog o.value)) w).getD t none := rfl

theorem preRow_y_next_return {R : Type} [Field R] (rlog : ℚ → R) (rsqrt : R → R)
    (df : List Obs) (lags : List Int) (windows : List Nat) (t : Nat) :
    (preRow rlog rsqrt df lags windows t).y_next_return
      = (shiftCol (-1) (diffCol ((validSeries df).map fun o => rlog o.value))).getD t none := rfl

/-- C3 amended: for a validated series, positive lags and windows of size
at least two, a pre-drop row is fully defined exactly when its offset t
satisfies max(max(lags) + 1, max(windows)) <= t <= n - 2; so the first
fully defined row sits at offset max(max(lags) + 1, max(windows)), not at
max(1, max(lags)), and the last at n - 2. -/
theorem definedRowRange {R : Type} [Field R] (rlog : ℚ → R) (rsqrt : R → R)
    (df : List Obs) (lags : List Int) (windows : List Nat)
    (hs : List.Pairwise dle df) (hp : ∀ o ∈ df, 0 < o.value)
    (hl : ∀ k ∈ lags, 1 ≤ k) (hw : ∀ w ∈ windows, 2 ≤ w)
    (t : Nat) (ht : t < df.length) :
    rowDefined ((preTable rlog rsqrt df lags windows).getD t default) = true
      ↔ (maxLagNat lags + 1 ≤ t ∧ maxWin windows ≤ t ∧ t + 1 < df.length) := by
  have hv : validSeries df = df := validSeries_eq_self hs hp
  have hvlen : (validSeries df).length = df.length := by rw [hv]
  have hlplen : ((validSeries df).map fun o => rlog o.value).length = df.length := by
    simp [hv]
  rw [getD_preTable _ _ _ _ _ t (by omega)]
  simp only [rowDefined, preRow_log_return, preRow_lagFeats, preRow_rollMeans,
    preRow_rollStds, preRow_y_next_return, Bool.and_eq_true, List.all_eq_true]
  constructor
  · rintro ⟨⟨⟨⟨ha, hb⟩, hc⟩, hd⟩, he⟩
    rw [getD_diffCol_isSome, hlplen] at ha
    rw [tgt_cell_isSome, hlplen] at he
    refine ⟨?_, ?_, he⟩
    · rw [maxLagNat_le_iff]
      refine ⟨ha.1, fun k hk => ?_⟩
      have hcell := hb _ (List.mem_map_of_mem _ hk)
      rw [lag_cell_isSome _ k (hl k hk) t (by omega)] at hcell
      exact hcell
    · rw [maxWin_le_iff]
      intro w hwm
      have hcell := hd _ (List.mem_map_of_mem _ hwm)
      rw [std_cell_isSome rsqrt _ w t (hw w hwm) (by omega)] at hcell
      exact hcell
  · rintro ⟨hlg, hwn, h2⟩
    rw [maxLagNat_le_iff] at hlg
    rw [maxWin_le_iff] at hwn
    refine ⟨⟨⟨⟨?_, ?_⟩, ?_⟩, ?_⟩, ?_⟩
    · rw [getD_diffCol_isSome, hlplen]
      exact ⟨hlg.1, ht⟩
    · intro x hx
      rcases List.mem_map.mp hx with ⟨k, hk, rfl⟩
      rw [lag_cell_isSome _ k (hl k hk) t (by omega)]
      exact hlg.2 k hk
    · intro x hx
      rcases List.mem_map.mp hx with ⟨w, hwm, rfl⟩
      rw [mean_cell_isSome _ w t (by have := hw w hwm; omega) (by omega)]
      exact hwn w hwm
    · intro x hx
      rcases List.mem_map.mp hx with ⟨w, hwm, rfl⟩
      rw [std_cell_isSome rsqrt _ w t (hw w hwm) (by omega)]
      exact hwn w hwm
    · rw [tgt_cell_isSome, hlplen]
      exact h2

/-- Witness for the amended C3 on the six-row series with lags [1] and
windows [3]: the row at offset 3 = max(1 + 1, 3) is fully defined. -/
theorem definedRowRange_witness :
    rowDefined ((preTable (fun q => Real.log (q : ℝ)) Real.sqrt demo6 [1] [3]).getD 3 default) = true
      ↔ (maxLagNat [1] + 1 ≤ 3 ∧ maxWin [3] ≤ 3 ∧ 3 + 1 < demo6.length) :=
  definedRowRange (fun q => Real.log (q : ℝ)) Real.sqrt demo6 [1] [3]
    (by decide) (by decide) (by decide) (by decide) 3 (by decide)

/-! ### Claim C4: rolling statistics -/

/-- C4: for every requested window w and every offset t preceded by w
defined consecutive log-returns, the rolling-mean cell is the arithmetic
mean of the w log-returns ending at t and the rolling-std cell is their
sample standard deviation with Bessel's correction; for w = 1 the std
cell is undefined and makes the row fail the drop criterion, never a
coerced zero. -/
theorem rollingStatsCorrect (df : List Obs) (lags : List Int) (windows : List Nat)
    (hs : List.Pairwise dle df) (hp : ∀ o ∈ df, 0 < o.value)
    (w i t : Nat) (hi : i < windows.length) (hiw : windows.getD i 0 = w)
    (hw1 : 1 ≤ w) (hwt : w ≤ t) (ht : t < df.length) :
    (((preTable (fun q => Real.log (q : ℝ)) Real.sqrt df lags windows).getD t default).rollMeans.getD i none
        = some ((∑ j ∈ Finset.range w,
            logReturnVal (fun q => Real.log (q : ℝ)) df (t + 1 - w + j)) / (w : ℝ)))
    ∧ (2 ≤ w →
        ((preTable (fun q => Real.log (q : ℝ)) Real.sqrt df lags windows).getD t default).rollStds.getD i none
          = some (Real.sqrt ((∑ j ∈ Finset.range w,
              (logReturnVal (fun q => Real.log (q : ℝ)) df (t + 1 - w + j)
                - (∑ j2 ∈ Finset.range w,
                    logReturnVal (fun q => Real.log (q : ℝ)) df (t + 1 - w + j2)) / (w : ℝ)) ^ 2)
              / ((w : ℝ) - 1))))
    ∧ (w = 1 →
        ((preTable (fun q => Real.log (q : ℝ)) Real.sqrt df lags windows).getD t default).rollStds.getD i none
            = none
        ∧ rowDefined ((preTable (fun q => Real.log (q : ℝ)) Real.sqrt df lags windows).getD t default)
            = false) := by
  have hv : validSeries df = df := validSeries_eq_self hs hp
  have hvlen : (validSeries df).length = df.length := by rw [hv]
  have hlplen : ((validSeries df).map fun o => Real.log (o.value : ℝ)).length = df.length := by
    simp [hv]
  have hlrlen : (diffCol ((validSeries df).map fun o => Real.log (o.value : ℝ))).length
      = df.length := by
    rw [length_diffCol, hlplen]
  rw [getD_preTable _ _ _ _ _ t (by omega)]
  have hvals : ∀ j, j < w →
      (diffCol ((validSeries df).map fun o => Real.log (o.value : ℝ))).getD (t + 1 - w + j) none
        = some (logReturnVal (fun q => Real.log (q : ℝ)) df (t + 1 - w + j)) := by
    intro j hj
    rw [getD_diffCol_of_pos _ _ (by omega) (by rw [hlplen]; omega)]
    rw [getD_map _ _ _ _ default (by rw [hvlen]; omega)]
    rw [getD_map _ _ _ _ default (by rw [hvlen]; omega)]
    rfl
  have hwin := windowAt_eq_some
      (diffCol ((validSeries df).map fun o => Real.log (o.value : ℝ))) w t hw1
      (by omega) (by rw [hlrlen]; omega)
      (logReturnVal (fun q => Real.log (q : ℝ)) df) hvals
  refine ⟨?_, ?_, ?_⟩
  · rw [preRow_rollMeans]
    rw [getD_map _ _ _ _ 0 hi, hiw]
    rw [getD_rollMeanCol _ _ _ (by rw [hlrlen]; omega)]
    rw [hwin, Option.map_some']
    rw [sum_range_map]
  · intro hw2
    rw [preRow_rollStds]
    rw [getD_map _ _ _ _ 0 hi, hiw]
    rw [getD_rollStdCol _ _ _ _ (by rw [hlrlen]; omega)]
    rw [hwin]
    show sampleStd Real.sqrt _ = _
    unfold sampleStd
    rw [if_neg (by simp; omega)]
    have hxlen : ((List.range w).map fun j =>
        logReturnVal (fun q => Real.log (q : ℝ)) df (t + 1 - w + j)).length = w := by
      simp
    simp only [hxlen, List.map_map, Function.comp, sum_range_map]
  · intro hw1eq
    subst hw1eq
    have hcell : ((preRow (fun q => Real.log (q : ℝ)) Real.sqrt df lags windows t).rollStds).getD i none
        = none := by
      rw [preRow_rollStds, getD_map _ _ _ _ 0 hi, hiw]
      exact std_cell_window_one _ _ t (by rw [hlrlen]; omega)
    refine ⟨hcell, ?_⟩
    cases hrd : rowDefined (preRow (fun q => Real.log (q : ℝ)) Real.sqrt df lags windows t) with
    | false => rfl
    | true =>
      exfalso
      simp only [rowDefined, Bool.and_eq_true, List.all_eq_true] at hrd
      have hlen2 : i < (preRow (fun q => Real.log (q : ℝ)) Real.sqrt df lags windows t).rollStds.length := by
        rw [preRow_rollStds]
        simpa using hi
      have hforced := hrd.1.2 _ (getD_mem_of_lt _ none hlen2)
      rw [hcell] at hforced
      simp at hforced

/-- Witness for C4 on the six-row series with window 3 at offset 3. -/
theorem rollingStatsCorrect_witness :
    (((preTable (fun q => Real.log (q : ℝ)) Real.sqrt demo6 [1] [3]).getD 3 default).rollMeans.getD 0 none
        = some ((∑ j ∈ Finset.range 3,
            logReturnVal (fun q => Real.log (q : ℝ)) demo6 (3 + 1 - 3 + j)) / (3 : ℝ)))
    ∧ (2 ≤ 3 →
        ((preTable (fun q => Real.log (q : ℝ)) Real.sqrt demo6 [1] [3]).getD 3 default).rollStds.getD 0 none
          = some (Real.sqrt ((∑ j ∈ Finset.range 3,
              (logReturnVal (fun q => Real.log (q : ℝ)) demo6 (3 + 1 - 3 + j)
                - (∑ j2 ∈ Finset.range 3,
                    logReturnVal (fun q => Real.log (q : ℝ)) demo6 (3 + 1 - 3 + j2)) / (3 : ℝ)) ^ 2)
              / ((3 : ℝ) - 1))))
    ∧ (3 = 1 →
        ((preTable (fun q => Real.log (q : ℝ)) Real.sqrt demo6 [1] [3]).getD 3 default).rollStds.getD 0 none
            = none
        ∧ rowDefined ((preTable (fun q => Real.log (q : ℝ)) Real.sqrt demo6 [1] [3]).getD 3 default)
            = false) :=
  rollingStatsCorrect demo6 [1] [3] (by decide) (by decide) 3 0 3
    (by decide) (by decide) (by decide) (by decide) (by decide)

/-! ### pyRound bounds -/

theorem pyRound_le_floor_add_one (q : ℚ) : pyRound q ≤ ⌊q⌋ + 1 := by
  unfold pyRound
  split
  · omega
  split
  · omega
  split <;> omega

theorem pyRound_nonneg (q : ℚ) (h : 0 ≤ q) : 0 ≤ pyRound q := by
  have h0 : 0 ≤ ⌊q⌋ := Int.floor_nonneg.mpr h
  unfold pyRound
  split
  · omega
  split
  · omega
  split <;> omega

/-! ### Claim C5: split sizes -/

/-- C5: for at least two rows and a test fraction in (0,1), timeSplit
keeps the input order, the test set is the suffix of exactly
max(1, round(n * test_fraction)) rows and the train set the complementary
prefix. -/
theorem timeSplitCounts {α : Type} (df : List α) (ts : ℚ) (h2 : 2 ≤ df.length)
    (h0 : 0 < ts) (h1 : ts < 1) :
    (timeSplit df ts).1 ++ (timeSplit df ts).2 = df
    ∧ (timeSplit df ts).2.length = max 1 (pyRound ((df.length : ℚ) * ts)).toNat
    ∧ (timeSplit df ts).1.length
        = df.length - max 1 (pyRound ((df.length : ℚ) * ts)).toNat := by
  have hnq : (0 : ℚ) < (df.length : ℚ) := by
    exact_mod_cast Nat.lt_of_lt_of_le (by norm_num) h2
  have hqlt : (df.length : ℚ) * ts < (df.length : ℚ) := by
    calc (df.length : ℚ) * ts < (df.length : ℚ) * 1 := by
          exact mul_lt_mul_of_pos_left h1 hnq
    _ = (df.length : ℚ) := mul_one _
  have hfloor : ⌊(df.length : ℚ) * ts⌋ < (df.length : ℤ) := by
    rw [Int.floor_lt]
    exact_mod_cast hqlt
  have hround : pyRound ((df.length : ℚ) * ts) ≤ (df.length : ℤ) := by
    have := pyRound_le_floor_add_one ((df.length : ℚ) * ts)
    omega
  have hnn : 0 ≤ pyRound ((df.length : ℚ) * ts) :=
    pyRound_nonneg _ (mul_nonneg (by positivity) h0.le)
  have hkn : max 1 (pyRound ((df.length : ℚ) * ts)).toNat ≤ df.length := by
    omega
  have hb : pyIdx df.length
        ((df.length : Int) - ((max 1 (pyRound ((df.length : ℚ) * ts)).toNat : Nat) : Int))
      = df.length - max 1 (pyRound ((df.length : ℚ) * ts)).toNat := by
    unfold pyIdx
    rw [if_pos (by omega)]
    omega
  simp only [timeSplit]
  rw [hb]
  refine ⟨List.take_append_drop _ _, ?_, ?_⟩
  · rw [List.length_drop]
    omega
  · rw [List.length_take]
    omega

/-- Witness for C5: ten rows at test fraction one half. -/
theorem timeSplitCounts_witness :
    (timeSplit demo10 (1 / 2)).1 ++ (timeSplit demo10 (1 / 2)).2 = demo10
    ∧ (timeSplit demo10 (1 / 2)).2.length
        = max 1 (pyRound ((demo10.length : ℚ) * (1 / 2))).toNat
    ∧ (timeSplit demo10 (1 / 2)).1.length
        = demo10.length - max 1 (pyRound ((demo10.length : ℚ) * (1 / 2))).toNat :=
  timeSplitCounts demo10 (1 / 2) (by decide) (by norm_num) (by norm_num)

/-! ### Claim C6: chronological split -/

/-- C6: on a feature table strictly ascending by date, every train row is
strictly earlier than every test row after timeSplit. -/
theorem timeSplitChronological (df : List Obs) (ts : ℚ)
    (hs : List.Pairwise dlt df) (a : Obs) (ha : a ∈ (timeSplit df ts).1)
    (b : Obs) (hb : b ∈ (timeSplit df ts).2) : a.date < b.date := by
  have hsplit := List.take_append_drop
    (pyIdx df.length
      ((df.length : Int) - ((max 1 (pyRound ((df.length : ℚ) * ts)).toNat : Nat) : Int))) df
  rw [← hsplit] at hs
  rcases List.pairwise_append.mp hs with ⟨-, -, hcross⟩
  exact hcross a ha b hb

/-- Witness for C6 on the four-row series at test fraction one half. -/
theorem timeSplitChronological_witness :
    (⟨0, 1⟩ : Obs).date < (⟨2, 3⟩ : Obs).date := by
  have hc : pyRound ((demo4.length : ℚ) * (1 / 2)) = 2 := by
    have he : ((demo4.length : ℚ) * (1 / 2)) = 2 := by norm_num [demo4]
    rw [he]
    unfold pyRound
    norm_num
  have hts : timeSplit demo4 (1 / 2) = ([⟨0, 1⟩, ⟨1, 2⟩], [⟨2, 3⟩, ⟨3, 4⟩]) := by
    simp only [timeSplit]
    rw [hc]
    decide
  exact timeSplitChronological demo4 (1 / 2) (by decide) _
    (by rw [hts]; simp) _ (by rw [hts]; simp)

/-! ### Claim C7 amended: what a non-positive lag computes -/

/-- C7 amended: buildFeatureMatrix performs no validation of the lags; a
non-positive lag k is silently accepted, and its feature cell at offset t
is the log-return at offset t + |k|: the row's own log-return for k = 0
and a future log-return for k < 0. -/
theorem nonpositiveLagLeaks {R : Type} [Field R] (rlog : ℚ → R) (rsqrt : R → R)
    (df : List Obs) (lags : List Int) (windows : List Nat)
    (k : Int) (hk : k ≤ 0) (i : Nat) (hi : i < lags.length) (hik : lags.getD i 1 = k)
    (t : Nat) (ht : t < (validSeries df).length) :
    ((preTable rlog rsqrt df lags windows).getD t default).lagFeats.getD i none
      = (logReturns rlog df).getD (t + (-k).toNat) none := by
  rw [getD_preTable _ _ _ _ _ t ht]
  rw [preRow_lagFeats]
  rw [getD_map _ _ _ _ 1 hi, hik]
  have hlen : t < (diffCol ((validSeries df).map fun o => rlog o.value)).length := by
    rw [length_diffCol]
    simpa using ht
  by_cases h0 : k = 0
  · subst h0
    rw [getD_shiftCol_nonneg 0 le_rfl _ t hlen]
    rw [if_neg (by simp)]
    simp [logReturns]
  · rw [getD_shiftCol_neg k (by omega)]
    rfl

/-- Witness for the amended C7: lag 0 on the five-row series reproduces
the row's own log-return cell. -/
theorem nonpositiveLagLeaks_witness :
    ((preTable (fun q => Real.log (q : ℝ)) Real.sqrt demo5 [0] [2]).getD 2 default).lagFeats.getD 0 none
      = (logReturns (fun q => Real.log (q : ℝ)) demo5).getD (2 + (-(0 : Int)).toNat) none :=
  nonpositiveLagLeaks (fun q => Real.log (q : ℝ)) Real.sqrt demo5 [0] [2] 0
    (by decide) 0 (by decide) (by decide) 2 (by decide)

/-! ### Claim C8: degenerate splits are returned, not rejected -/

/-- C8 counterexample: on a one-row table (n < 2) with test fraction one
half, timeSplit silently returns an empty train set and the whole table
as test set instead of failing. -/
theorem splitNoValidation_cex :
    timeSplit ([⟨0, 1⟩] : List Obs) (1 / 2) = ([], [⟨0, 1⟩]) := by
  norm_num [timeSplit, pyIdx, pyRound]

/-- C8 amended: timeSplit performs no validation and raises no error:
whenever the computed test row count max(1, round(n * test_fraction))
equals the table length n -- in particular on every one-row table with a
test fraction in (0,1), the n < 2 case of the claim -- it returns the
degenerate split with an empty train set and the whole input as test
set. -/
theorem timeSplitDegenerate {α : Type} (df : List α) (ts : ℚ)
    (h : max 1 (pyRound ((df.length : ℚ) * ts)).toNat = df.length) :
    timeSplit df ts = ([], df) := by
  have hb : pyIdx df.length
        ((df.length : Int) - ((max 1 (pyRound ((df.length : ℚ) * ts)).toNat : Nat) : Int))
      = 0 := by
    unfold pyIdx
    rw [if_pos (by omega)]
    omega
  simp only [timeSplit]
  rw [hb]
  simp

/-- Witness for the amended C8 on a one-element list: the computed test
count is max(1, round(1/2)) = 1, the whole table. -/
theorem timeSplitDegenerate_witness : timeSplit ([0] : List Nat) (1 / 2) = ([], [0]) :=
  timeSplitDegenerate [0] (1 / 2) (by norm_num [pyRound])

/-! ### Claim C9: evaluation metrics -/

/-- C9: the metrics are the mean absolute deviation and the root of the
mean squared deviation over the test pairs; when the predictions equal
the truths both are exactly zero. -/
theorem metricsFormulas (yt yp : List ℝ) (hlen : yp.length = yt.length)
    (hne : yt ≠ []) :
    mean_absolute_error yt yp
        = (∑ i ∈ Finset.range yt.length, |yt.getD i 0 - yp.getD i 0|) / (yt.length : ℝ)
    ∧ mean_squared_error yt yp
        = (∑ i ∈ Finset.range yt.length, (yt.getD i 0 - yp.getD i 0) ^ 2) / (yt.length : ℝ)
    ∧ (yp = yt → mean_absolute_error yt yp = 0 ∧ rmseMetric Real.sqrt yt yp = 0) := by
  refine ⟨?_, ?_, ?_⟩
  · unfold mean_absolute_error
    rw [sum_zipWith _ yt yp 0 0 hlen]
  · unfold mean_squared_error
    rw [sum_zipWith _ yt yp 0 0 hlen]
  · rintro rfl
    constructor
    · unfold mean_absolute_error
      have hz : (List.zipWith (fun a b : ℝ => |a - b|) yp yp).sum = 0 := by
        rw [List.zipWith_same]
        apply List.sum_eq_zero
        intro x hx
        rcases List.mem_map.mp hx with ⟨a, ha, rfl⟩
        simp
      rw [hz]
      simp
    · unfold rmseMetric mean_squared_error
      have hz : (List.zipWith (fun a b : ℝ => (a - b) ^ 2) yp yp).sum = 0 := by
        rw [List.zipWith_same]
        apply List.sum_eq_zero
        intro x hx
        rcases List.mem_map.mp hx with ⟨a, ha, rfl⟩
        simp
      rw [hz]
      simp

/-- Witness for C9 on equal two-element test vectors. -/
theorem metricsFormulas_witness :
    mean_absolute_error ([1, 2] : List ℝ) [1, 2]
        = (∑ i ∈ Finset.range ([1, 2] : List ℝ).length,
            |([1, 2] : List ℝ).getD i 0 - ([1, 2] : List ℝ).getD i 0|)
          / (([1, 2] : List ℝ).length : ℝ)
    ∧ mean_squared_error ([1, 2] : List ℝ) [1, 2]
        = (∑ i ∈ Finset.range ([1, 2] : List ℝ).length,
            (([1, 2] : List ℝ).getD i 0 - ([1, 2] : List ℝ).getD i 0) ^ 2)
          / (([1, 2] : List ℝ).length : ℝ)
    ∧ (([1, 2] : List ℝ) = [1, 2] →
        mean_absolute_error ([1, 2] : List ℝ) [1, 2] = 0
        ∧ rmseMetric Real.sqrt ([1, 2] : List ℝ) [1, 2] = 0) :=
  metricsFormulas [1, 2] [1, 2] rfl (by simp)

end CoffeePipeline
